import Mathlib

/-!
Verification development for the BumbleBee trading bot (main.py).

The source is a single polling loop (bot_loop) that tracks a recurring
Polymarket binary market, opens one bookkeeping session per market instance,
records simulated fills when the observed prices are below a configured
ceiling, and settles the session profit when the market expires.  This file
gives a shallow embedding of that loop and of the auxiliary functions
(get_latest_prices, select_active_market, the controls endpoint), and proves
the spec claims about them.

Modelling conventions:
  - Python floats are modelled as rationals, Python ints as integers.
  - The sqlite tables are modelled as in-memory lists: the sessions table is
    a list of Session rows (the AUTOINCREMENT id is the list index), and each
    session row carries the list of its own trades rows, in insertion order.
  - An uncaught Python exception escaping bot_loop kills the daemon thread;
    this is modelled by a crashed flag that freezes the loop state.
  - The shared mutable BotState is read by the loop once per relevant access
    inside an iteration and may be rewritten by the HTTP handlers between
    iterations; it is modelled by per-iteration input fields (running, shares,
    max_price, mode) carried by Input.
  - datetime values are modelled as natural numbers; an endDate string that
    datetime.fromisoformat rejects is modelled as endDate = none.
-/

namespace Bumblebee

/-- One of the two outcomes of the binary market.  The trades table only ever
receives the literals YES and NO (bot_loop lines 241 and 251), so the side
column is embedded as a two-valued type. -/
inductive Side where
  | yes
  | no
  deriving DecidableEq

/-- One row of the trades table: (session_id is implicit: each session row
carries its own trades list), timestamp, side, price, shares. -/
structure Fill where
  ts : ℕ
  side : Side
  price : ℚ
  shares : ℤ
  deriving DecidableEq

/-- SUM(CASE WHEN side='YES' THEN shares ELSE 0 END) of the settlement query. -/
def sumYesShares (ts : List Fill) : ℤ :=
  (ts.map (fun f => if f.side = Side.yes then f.shares else 0)).sum

/-- SUM(CASE WHEN side='NO' THEN shares ELSE 0 END) of the settlement query. -/
def sumNoShares (ts : List Fill) : ℤ :=
  (ts.map (fun f => if f.side = Side.no then f.shares else 0)).sum

/-- SUM(CASE WHEN side='YES' THEN price*shares ELSE 0 END) of the settlement
query. -/
def costYes (ts : List Fill) : ℚ :=
  (ts.map (fun f => if f.side = Side.yes then f.price * (f.shares : ℚ) else 0)).sum

/-- SUM(CASE WHEN side='NO' THEN price*shares ELSE 0 END) of the settlement
query. -/
def costNo (ts : List Fill) : ℚ :=
  (ts.map (fun f => if f.side = Side.no then f.price * (f.shares : ℚ) else 0)).sum

/-- profit = min(sy, sn) - (cost_yes + cost_no), computed from the trades of
the session being closed (bot_loop lines 198 to 211).  The SQL SUM of an empty
row set is NULL and is coalesced to 0 by the two or-0 lines; the list sums
below are 0 on the empty list. -/
def settleProfit (ts : List Fill) : ℚ :=
  ((min (sumYesShares ts) (sumNoShares ts) : ℤ) : ℚ) - (costYes ts + costNo ts)

/-- One record of the recent-trades feed consumed by get_latest_prices: the
outcome tag (already upper-cased, as the code applies .upper()) and the price. -/
structure TradeRec where
  outcome : String
  price : ℚ
  deriving DecidableEq

/-- The scanning loop of get_latest_prices (lines 128 to 134): walk the feed
in its natural order, remember the most recent YES and NO assignment, and
return as soon as both are set. -/
def scanTrades : List TradeRec → Option ℚ → Option ℚ → Option (ℚ × ℚ)
  | [], _, _ => none
  | t :: ts, y, n =>
      match (if t.outcome = "YES" then some t.price else y),
            (if t.outcome = "NO" then some t.price else n) with
      | some a, some b => some (a, b)
      | some a, none => scanTrades ts (some a) none
      | none, some b => scanTrades ts none (some b)
      | none, none => scanTrades ts none none

/-- get_latest_prices on an already-fetched window of feed records: both
accumulators start at None; returns None when the window is exhausted before
both sides have been observed (line 135). -/
def get_latest_prices (l : List TradeRec) : Option (ℚ × ℚ) :=
  scanTrades l none none

/-- Accumulator update for the YES side: one step of the scan restricted to
the yes variable. -/
def updYes (y : Option ℚ) (t : TradeRec) : Option ℚ :=
  if t.outcome = "YES" then some t.price else y

/-- Accumulator update for the NO side. -/
def updNo (n : Option ℚ) (t : TradeRec) : Option ℚ :=
  if t.outcome = "NO" then some t.price else n

/-- Price of the most recent YES record of a window (none if the window has
no YES record). -/
def lastYes (l : List TradeRec) : Option ℚ :=
  l.foldl updYes none

/-- Price of the most recent NO record of a window. -/
def lastNo (l : List TradeRec) : Option ℚ :=
  l.foldl updNo none

/-- The window contains a YES record. -/
def hasYes (l : List TradeRec) : Prop :=
  ∃ t ∈ l, t.outcome = "YES"

/-- The window contains a NO record. -/
def hasNo (l : List TradeRec) : Prop :=
  ∃ t ∈ l, t.outcome = "NO"

/-- Price of the first record of the given side in scan order.  This is the
reading of the spec sentence that the first occurrence per side wins; it is
compared against get_latest_prices. -/
def firstSidePrice (side : String) (l : List TradeRec) : Option ℚ :=
  (l.find? (fun t => t.outcome == side)).map (fun t => t.price)

/-- One market instance as seen by the scheduler: conditionId, question, and
the parse result of its endDate string (none when datetime.fromisoformat
raises on it). -/
structure MarketInfo where
  conditionId : String
  question : String
  endDate : Option ℕ
  deriving DecidableEq

/-- Sort key of select_active_market (lines 118 to 122): the parsed endDate,
with a failed parse mapped to datetime.max, i.e. ordered after every
parseable timestamp. -/
def end_ts_key (m : MarketInfo) : WithTop ℕ :=
  match m.endDate with
  | some e => (e : WithTop ℕ)
  | none => ⊤

/-- The element kept by one comparison step of sorted(...)[0]: Python sort is
stable and ascending, so the first element of the sorted list is the earliest
element attaining the minimal key. -/
def pickEarlier (best x : MarketInfo) : MarketInfo :=
  if end_ts_key x < end_ts_key best then x else best

/-- select_active_market (lines 115 to 123): none on an empty candidate list,
otherwise the candidate with the minimal endDate key (first such candidate in
feed order). -/
def select_active_market (l : List MarketInfo) : Option MarketInfo :=
  match l with
  | [] => none
  | m :: rest => some (rest.foldl pickEarlier m)

/-- The body of a POST /controls request (all fields optional). -/
structure ControlReq where
  shares : Option ℤ
  max_price : Option ℚ
  mode : Option String
  max_sessions : Option ℤ

/-- The mutable BotState fields touched by the control endpoints. -/
structure ControlState where
  running : Bool
  mode : String
  shares : ℤ
  max_price : ℚ
  max_sessions : Option ℤ
  current_sessions : ℕ
  status_msg : String
  deriving DecidableEq

/-- BotState.__init__ defaults. -/
def initialState : ControlState :=
  { running := false
    mode := "paper"
    shares := 20
    max_price := 3/5
    max_sessions := none
    current_sessions := 0
    status_msg := "IDLE" }

/-- The controls handler (lines 290 to 299): each present field overwrites
the stored one; only max_sessions is normalised (non-positive becomes None,
meaning unbounded); shares is stored without any validation. -/
def controls (req : ControlReq) (st : ControlState) : ControlState :=
  let st1 := match req.shares with
    | some v => { st with shares := v }
    | none => st
  let st2 := match req.max_price with
    | some v => { st1 with max_price := v }
    | none => st1
  let st3 := match req.mode with
    | some v => { st2 with mode := v }
    | none => st2
  let st4 := match req.max_sessions with
    | some v => { st3 with max_sessions := if 0 < v then some v else none }
    | none => st3
  { st4 with status_msg := "CONFIGURAÇÕES SALVAS" }

/-- One row of the sessions table. -/
structure Session where
  condition_id : Option String
  market_question : String
  start_ts : ℕ
  end_ts : Option ℕ
  mode : String
  shares_target : ℤ
  shares_yes : ℤ
  shares_no : ℤ
  max_price : ℚ
  profit : Option ℚ
  trades : List Fill
  deriving DecidableEq

/-- Default row used only as the getD fallback when indexing the table. -/
def emptySession : Session :=
  { condition_id := none
    market_question := ""
    start_ts := 0
    end_ts := none
    mode := ""
    shares_target := 0
    shares_yes := 0
    shares_no := 0
    max_price := 0
    profit := none
    trades := [] }

/-- The external observations and shared-state reads of one loop iteration:
the run flag and configuration as read from BotState this iteration, the
market returned by refresh plus select_active_market, the outcome of the
recent-trades fetch (error models a raised exception), and the current time. -/
structure Input where
  running : Bool
  shares : ℤ
  max_price : ℚ
  mode : String
  market : Option MarketInfo
  feed : Except Unit (List TradeRec)
  now : ℕ

/-- The loop-relevant state: the sessions table, the three local variables of
bot_loop (session_id, session_condition, session_end), the closure counter,
and whether the loop thread has died from an uncaught exception. -/
structure LoopState where
  sessions : List Session
  session_id : Option ℕ
  session_condition : Option String
  session_end : Option ℕ
  current_sessions : ℕ
  crashed : Bool
  deriving DecidableEq

/-- State at thread start: empty table, all three locals None. -/
def loopInit : LoopState :=
  { sessions := []
    session_id := none
    session_condition := none
    session_end := none
    current_sessions := 0
    crashed := false }

/-- Apply f to the element at the given index, if it exists. -/
def modifyAt {α : Type} (f : α → α) : ℕ → List α → List α
  | _, [] => []
  | 0, a :: l => f a :: l
  | n + 1, a :: l => a :: modifyAt f n l

/-- The INSERT INTO sessions of lines 158 to 169: condition and question come
from the selected market when one exists (PENDING MARKET otherwise), the
mode, target and ceiling are the BotState values read this iteration, the
counters default to 0 and end_ts, profit to NULL. -/
def newSession (inp : Input) : Session :=
  { condition_id := inp.market.map (fun m => m.conditionId)
    market_question := match inp.market with
      | some m => m.question
      | none => "PENDING MARKET"
    start_ts := inp.now
    end_ts := none
    mode := inp.mode
    shares_target := inp.shares
    shares_yes := 0
    shares_no := 0
    max_price := inp.max_price
    profit := none
    trades := [] }

/-- The entry rule applied to one session row (lines 235 to 256): sy and sn
are read once; each side independently fills the full remaining quantity
shares - filled at the observed price when the price is at most the ceiling
and the counter is strictly below the target, inserting the trade row and
incrementing the counter in the same transaction. -/
def entryRule (mp : ℚ) (sh : ℤ) (now : ℕ) (yes no : ℚ) (row : Session) : Session :=
  let sy := row.shares_yes
  let sn := row.shares_no
  let row1 :=
    if yes ≤ mp ∧ sy < sh then
      { row with
          trades := row.trades ++ [⟨now, Side.yes, yes, sh - sy⟩],
          shares_yes := row.shares_yes + (sh - sy) }
    else row
  if no ≤ mp ∧ sn < sh then
    { row1 with
        trades := row1.trades ++ [⟨now, Side.no, no, sh - sn⟩],
        shares_no := row1.shares_no + (sh - sn) }
  else row1

/-- Lines 175 to 189: the selected market differs from the tracked one, so
point the local condition and expiry at it and rewrite the session row.  A
market whose endDate does not parse makes datetime.fromisoformat raise at
line 177, after session_condition was already reassigned at line 176. -/
def associateStep (m : MarketInfo) (i : ℕ) (st : LoopState) : LoopState :=
  match m.endDate with
  | none => { st with session_condition := some m.conditionId, crashed := true }
  | some e =>
      { st with
          session_condition := some m.conditionId,
          session_end := some e,
          sessions := modifyAt
            (fun s => { s with condition_id := some m.conditionId,
                               market_question := m.question }) i st.sessions }

/-- Lines 195 to 228: the market expired, so write end_ts and the settled
profit into the session row, bump the closure counter, then reset the three
locals.  (The session-limit branch only rewrites the shared run flag, which
is modelled as the per-iteration running input.) -/
def settleStep (inp : Input) (i : ℕ) (st : LoopState) : LoopState :=
  { st with
      sessions := modifyAt
        (fun s => { s with end_ts := some inp.now,
                           profit := some (settleProfit s.trades) }) i st.sessions,
      current_sessions := st.current_sessions + 1,
      session_id := none,
      session_condition := none,
      session_end := none }

/-- Lines 230 to 259: fetch prices; a raised exception is uncaught and kills
the thread, an incomplete pair skips the cycle, and a pair drives the entry
rule on the current session row. -/
def tradeStep (inp : Input) (i : ℕ) (st : LoopState) : LoopState :=
  match inp.feed with
  | Except.error _ => { st with crashed := true }
  | Except.ok recs =>
      match get_latest_prices recs with
      | none => st
      | some (y, n) =>
          { st with sessions := modifyAt (entryRule inp.max_price inp.shares inp.now y n) i st.sessions }

/-- The part of the iteration after the session row is guaranteed to exist
(i is its index): associate a newly selected market, then sleep when no
market is visible, settle when expired, trade otherwise.  Comparing
datetime.now against a session_end that is still None raises at line 195;
that path is modelled as a crash (it is proved unreachable). -/
def afterCreate (inp : Input) (i : ℕ) (st : LoopState) : LoopState :=
  match inp.market with
  | none => st
  | some m =>
      let st2 := if st.session_condition = some m.conditionId then st else associateStep m i st
      if st2.crashed then st2
      else
        match st2.session_end with
        | none => { st2 with crashed := true }
        | some e => if e ≤ inp.now then settleStep inp i st2 else tradeStep inp i st2

/-- One full iteration of the while True loop of bot_loop: a dead thread
stays dead; a cleared run flag sleeps; otherwise insert the session row if
none is open, then run the rest of the cycle. -/
def loopIter (inp : Input) (st : LoopState) : LoopState :=
  if st.crashed then st
  else if inp.running = false then st
  else
    match st.session_id with
    | none =>
        afterCreate inp st.sessions.length
          { st with
              sessions := st.sessions ++ [newSession inp],
              session_id := some st.sessions.length }
    | some i => afterCreate inp i st

/-- Run the loop over a finite list of per-iteration inputs. -/
def runLoop : List Input → LoopState → LoopState
  | [], st => st
  | inp :: rest, st => runLoop rest (loopIter inp st)

/-- Number of sessions rows whose end_ts is still NULL. -/
def openCount (st : LoopState) : ℕ :=
  st.sessions.countP (fun s => s.end_ts.isNone)

/-- The YES-side trades of a session, in insertion order. -/
def yesFills (ts : List Fill) : List Fill :=
  ts.filter (fun f => decide (f.side = Side.yes))

/-- The NO-side trades of a session, in insertion order. -/
def noFills (ts : List Fill) : List Fill :=
  ts.filter (fun f => decide (f.side = Side.no))

/-- Per-row bookkeeping invariant: the two counters equal the per-side sums
of the session trades, and a closed row carries the settled profit of its
trades. -/
def rowOk (s : Session) : Prop :=
  s.shares_yes = sumYesShares s.trades ∧ s.shares_no = sumNoShares s.trades ∧
    (s.end_ts ≠ none → s.profit = some (settleProfit s.trades))

/-- Table-shape invariant: with no tracked session every row is closed; with
a tracked session it is the last row, it is the only open one, and every
earlier row is closed. -/
def shapeOk (st : LoopState) : Prop :=
  match st.session_id with
  | none => ∀ s ∈ st.sessions, s.end_ts ≠ none
  | some i => ∃ front lastRow, st.sessions = front ++ [lastRow] ∧ i = front.length ∧
      lastRow.end_ts = none ∧ ∀ s ∈ front, s.end_ts ≠ none

/-- The loop invariant maintained by every iteration of bot_loop. -/
def LoopInv (st : LoopState) : Prop :=
  shapeOk st ∧ ∀ s ∈ st.sessions, rowOk s

/-- Per-row bound used for the amended C4: under a fixed configuration every
row's target is that value and the counters stay below it. -/
def targetOk (T : ℤ) (s : Session) : Prop :=
  s.shares_target = T ∧ s.shares_yes ≤ T ∧ s.shares_no ≤ T

/-- Concrete market candidate used by the concrete traces. -/
def mkA : MarketInfo := ⟨"A", "qA", some 100⟩

/-- Second concrete market candidate with a later expiry. -/
def mkB : MarketInfo := ⟨"B", "qB", some 200⟩

/-- Concrete feed window with both sides present and cheap. -/
def feedGood : List TradeRec := [⟨"YES", 1/2⟩, ⟨"NO", 2/5⟩]

/-- Iteration input: running, target 1 share, ceiling 3/5, market A visible,
good feed, time 0.  Both sides fill. -/
def inpFill : Input := ⟨true, 1, 3/5, "paper", some mkA, Except.ok feedGood, 0⟩

/-- Same but with the share target raised to 2 between polls (a /controls
update), time 1. -/
def inpRaise : Input := ⟨true, 2, 3/5, "paper", some mkA, Except.ok feedGood, 1⟩

/-- Iteration whose recent-trades fetch raises an exception. -/
def inpCrash : Input := ⟨true, 1, 3/5, "paper", some mkA, Except.error (), 2⟩

/-- Iteration during which the selected market has switched to B while the
session opened on A has not expired. -/
def inpSwitch : Input := ⟨true, 1, 3/5, "paper", some mkB, Except.ok [], 1⟩

/-- Iteration at time 100, at which market A has expired. -/
def inpSettle : Input := ⟨true, 1, 3/5, "paper", some mkA, Except.ok [], 100⟩

/-- A session row whose YES counter already sits at its target of 5. -/
def targetRow : Session :=
  { condition_id := some "A"
    market_question := "qA"
    start_ts := 0
    end_ts := none
    mode := "paper"
    shares_target := 5
    shares_yes := 5
    shares_no := 0
    max_price := 1
    profit := none
    trades := [⟨0, Side.yes, 1/2, 5⟩] }

/-- Feed window in which YES occurs twice before the first NO record. -/
def exFeed : List TradeRec := [⟨"YES", 1/2⟩, ⟨"YES", 3/5⟩, ⟨"NO", 2/5⟩]

theorem modifyAt_append_eq {α : Type} (f : α → α) (front : List α) (x : α) :
    modifyAt f front.length (front ++ [x]) = front ++ [f x] := by
  induction front with
  | nil => rfl
  | cons a l ih => simpa [modifyAt] using ih

theorem length_modifyAt {α : Type} (f : α → α) (i : ℕ) (l : List α) :
    (modifyAt f i l).length = l.length := by
  induction l generalizing i with
  | nil => cases i <;> rfl
  | cons a l ih =>
      cases i with
      | zero => rfl
      | succ n => simpa [modifyAt] using ih n

theorem getD_modifyAt_self {α : Type} (f : α → α) (l : List α) (d : α) (i : ℕ)
    (h : i < l.length) : (modifyAt f i l).getD i d = f (l.getD i d) := by
  induction l generalizing i with
  | nil => simp at h
  | cons a l ih =>
      cases i with
      | zero => rfl
      | succ n =>
          simp only [modifyAt, List.getD_cons_succ]
          exact ih n (by simpa using h)

theorem getD_append_left {α : Type} (l l2 : List α) (d : α) (j : ℕ)
    (h : j < l.length) : (l ++ l2).getD j d = l.getD j d := by
  induction l generalizing j with
  | nil => simp at h
  | cons a l ih =>
      cases j with
      | zero => rfl
      | succ n =>
          simp only [List.cons_append, List.getD_cons_succ]
          exact ih n (by simpa using h)

theorem getD_mem {α : Type} (l : List α) (d : α) (j : ℕ) (h : j < l.length) :
    l.getD j d ∈ l := by
  induction l generalizing j with
  | nil => simp at h
  | cons a l ih =>
      cases j with
      | zero => simp
      | succ n =>
          simp only [List.getD_cons_succ]
          exact List.mem_cons_of_mem a (ih n (by simpa using h))

theorem mem_modifyAt {α : Type} (f : α → α) (i : ℕ) (l : List α) (s : α)
    (h : s ∈ modifyAt f i l) : s ∈ l ∨ ∃ t, t ∈ l ∧ s = f t := by
  induction l generalizing i with
  | nil => simp [modifyAt] at h
  | cons a l ih =>
      cases i with
      | zero =>
          rcases List.mem_cons.mp h with h | h
          · exact Or.inr ⟨a, List.mem_cons_self a l, h⟩
          · exact Or.inl (List.mem_cons_of_mem a h)
      | succ n =>
          rcases List.mem_cons.mp h with h | h
          · exact Or.inl (h ▸ List.mem_cons_self a l)
          · rcases ih n h with h | ⟨t, ht, rfl⟩
            · exact Or.inl (List.mem_cons_of_mem a h)
            · exact Or.inr ⟨t, List.mem_cons_of_mem a ht, rfl⟩

theorem sumYesShares_append (ts ts2 : List Fill) :
    sumYesShares (ts ++ ts2) = sumYesShares ts + sumYesShares ts2 := by
  simp [sumYesShares]

theorem sumNoShares_append (ts ts2 : List Fill) :
    sumNoShares (ts ++ ts2) = sumNoShares ts + sumNoShares ts2 := by
  simp [sumNoShares]

theorem sumYesShares_cons (f : Fill) (ts : List Fill) :
    sumYesShares (f :: ts) = (if f.side = Side.yes then f.shares else 0) + sumYesShares ts := by
  simp [sumYesShares]

theorem sumNoShares_cons (f : Fill) (ts : List Fill) :
    sumNoShares (f :: ts) = (if f.side = Side.no then f.shares else 0) + sumNoShares ts := by
  simp [sumNoShares]

theorem sumYesShares_nil : sumYesShares [] = 0 := rfl

theorem sumNoShares_nil : sumNoShares [] = 0 := rfl

theorem cost_split (ts : List Fill) :
    costYes ts + costNo ts = (ts.map (fun f => f.price * (f.shares : ℚ))).sum := by
  induction ts with
  | nil => simp [costYes, costNo]
  | cons f ts ih =>
      simp only [costYes, costNo, List.map_cons, List.sum_cons] at ih ⊢
      cases hf : f.side <;> simp only [hf] <;> simp <;> linarith

theorem runFill_eval : runLoop [inpFill] loopInit =
    ⟨[⟨some "A", "qA", 0, none, "paper", 1, 1, 1, 3/5, none,
       [⟨0, Side.yes, 1/2, 1⟩, ⟨0, Side.no, 2/5, 1⟩]⟩],
      some 0, some "A", some 100, 0, false⟩ := by
  have h1 : ((2:ℚ))⁻¹ ≤ 3/5 := by norm_num
  have h2 : ((2:ℚ)/5) ≤ 3/5 := by norm_num
  simp [runLoop, loopIter, afterCreate, loopInit, inpFill, newSession, mkA,
    associateStep, settleStep, tradeStep, get_latest_prices, scanTrades, feedGood,
    entryRule, modifyAt, h1, h2]

theorem runRaise_eval : runLoop [inpFill, inpRaise] loopInit =
    ⟨[⟨some "A", "qA", 0, none, "paper", 1, 2, 2, 3/5, none,
       [⟨0, Side.yes, 1/2, 1⟩, ⟨0, Side.no, 2/5, 1⟩,
        ⟨1, Side.yes, 1/2, 1⟩, ⟨1, Side.no, 2/5, 1⟩]⟩],
      some 0, some "A", some 100, 0, false⟩ := by
  have h1 : ((2:ℚ))⁻¹ ≤ 3/5 := by norm_num
  have h2 : ((2:ℚ)/5) ≤ 3/5 := by norm_num
  simp [runLoop, loopIter, afterCreate, loopInit, inpFill, inpRaise, newSession, mkA,
    associateStep, settleStep, tradeStep, get_latest_prices, scanTrades, feedGood,
    entryRule, modifyAt, h1, h2]

theorem runSwitch_eval : runLoop [inpFill, inpSwitch] loopInit =
    ⟨[⟨some "B", "qB", 0, none, "paper", 1, 1, 1, 3/5, none,
       [⟨0, Side.yes, 1/2, 1⟩, ⟨0, Side.no, 2/5, 1⟩]⟩],
      some 0, some "B", some 200, 0, false⟩ := by
  have h1 : ((2:ℚ))⁻¹ ≤ 3/5 := by norm_num
  have h2 : ((2:ℚ)/5) ≤ 3/5 := by norm_num
  simp [runLoop, loopIter, afterCreate, loopInit, inpFill, inpSwitch, newSession, mkA, mkB,
    associateStep, settleStep, tradeStep, get_latest_prices, scanTrades, feedGood,
    entryRule, modifyAt, h1, h2]

theorem runCrash_eval : runLoop [inpFill, inpCrash] loopInit =
    ⟨[⟨some "A", "qA", 0, none, "paper", 1, 1, 1, 3/5, none,
       [⟨0, Side.yes, 1/2, 1⟩, ⟨0, Side.no, 2/5, 1⟩]⟩],
      some 0, some "A", some 100, 0, true⟩ := by
  have h1 : ((2:ℚ))⁻¹ ≤ 3/5 := by norm_num
  have h2 : ((2:ℚ)/5) ≤ 3/5 := by norm_num
  simp [runLoop, loopIter, afterCreate, loopInit, inpFill, inpCrash, newSession, mkA,
    associateStep, settleStep, tradeStep, get_latest_prices, scanTrades, feedGood,
    entryRule, modifyAt, h1, h2]

theorem runSettle_eval : runLoop [inpFill, inpSettle] loopInit =
    ⟨[⟨some "A", "qA", 0, some 100, "paper", 1, 1, 1, 3/5,
       some (settleProfit [⟨0, Side.yes, 1/2, 1⟩, ⟨0, Side.no, 2/5, 1⟩]),
       [⟨0, Side.yes, 1/2, 1⟩, ⟨0, Side.no, 2/5, 1⟩]⟩],
      none, none, none, 1, false⟩ := by
  have h1 : ((2:ℚ))⁻¹ ≤ 3/5 := by norm_num
  have h2 : ((2:ℚ)/5) ≤ 3/5 := by norm_num
  simp [runLoop, loopIter, afterCreate, loopInit, inpFill, inpSettle, newSession, mkA,
    associateStep, settleStep, tradeStep, get_latest_prices, scanTrades, feedGood,
    entryRule, modifyAt, h1, h2]

theorem hasYes_cons (t : TradeRec) (ts : List TradeRec) :
    hasYes (t :: ts) ↔ t.outcome = "YES" ∨ hasYes ts := by
  constructor
  · rintro ⟨x, hx, hpx⟩
    rcases List.mem_cons.mp hx with rfl | hx
    · exact Or.inl hpx
    · exact Or.inr ⟨x, hx, hpx⟩
  · rintro (hp | ⟨x, hx, hpx⟩)
    · exact ⟨t, List.mem_cons_self t ts, hp⟩
    · exact ⟨x, List.mem_cons_of_mem t hx, hpx⟩

theorem hasNo_cons (t : TradeRec) (ts : List TradeRec) :
    hasNo (t :: ts) ↔ t.outcome = "NO" ∨ hasNo ts := by
  constructor
  · rintro ⟨x, hx, hpx⟩
    rcases List.mem_cons.mp hx with rfl | hx
    · exact Or.inl hpx
    · exact Or.inr ⟨x, hx, hpx⟩
  · rintro (hp | ⟨x, hx, hpx⟩)
    · exact ⟨t, List.mem_cons_self t ts, hp⟩
    · exact ⟨x, List.mem_cons_of_mem t hx, hpx⟩

theorem hasYes_nil : ¬ hasYes [] := by
  rintro ⟨x, hx, -⟩
  exact (List.not_mem_nil x) hx

theorem hasNo_nil : ¬ hasNo [] := by
  rintro ⟨x, hx, -⟩
  exact (List.not_mem_nil x) hx

theorem foldl_updYes_ne_none (l : List TradeRec) :
    ∀ y : Option ℚ, l.foldl updYes y ≠ none ↔ (y ≠ none ∨ hasYes l) := by
  induction l with
  | nil =>
      intro y
      simp only [List.foldl_nil]
      exact ⟨fun h => Or.inl h, fun h => h.elim id (fun h => absurd h hasYes_nil)⟩
  | cons t ts ih =>
      intro y
      rw [List.foldl_cons, ih, hasYes_cons]
      by_cases ht : t.outcome = "YES"
      · simp [updYes, ht]
      · simp only [updYes, if_neg ht, ht, false_or]
        tauto

theorem foldl_updNo_ne_none (l : List TradeRec) :
    ∀ n : Option ℚ, l.foldl updNo n ≠ none ↔ (n ≠ none ∨ hasNo l) := by
  induction l with
  | nil =>
      intro n
      simp only [List.foldl_nil]
      exact ⟨fun h => Or.inl h, fun h => h.elim id (fun h => absurd h hasNo_nil)⟩
  | cons t ts ih =>
      intro n
      rw [List.foldl_cons, ih, hasNo_cons]
      by_cases ht : t.outcome = "NO"
      · simp [updNo, ht]
      · simp only [updNo, if_neg ht, ht, false_or]
        tauto

theorem scanTrades_cons (t : TradeRec) (ts : List TradeRec) (y n : Option ℚ) :
    scanTrades (t :: ts) y n =
      match (if t.outcome = "YES" then some t.price else y),
            (if t.outcome = "NO" then some t.price else n) with
      | some a, some b => some (a, b)
      | some a, none => scanTrades ts (some a) none
      | none, some b => scanTrades ts none (some b)
      | none, none => scanTrades ts none none := rfl

theorem scanTrades_eq_none (l : List TradeRec) :
    ∀ y n : Option ℚ, (y = none ∨ n = none) →
      (scanTrades l y n = none ↔ ¬((y ≠ none ∨ hasYes l) ∧ (n ≠ none ∨ hasNo l))) := by
  induction l with
  | nil =>
      intro y n h
      have h1 : scanTrades [] y n = none := rfl
      simp only [h1, true_iff]
      rintro ⟨hy, hn⟩
      rcases hy with hy | hy
      · rcases hn with hn | hn
        · rcases h with rfl | rfl
          · exact hy rfl
          · exact hn rfl
        · exact hasNo_nil hn
      · exact hasYes_nil hy
  | cons t ts ih =>
      intro y n h
      by_cases hty : t.outcome = "YES" <;> by_cases htn : t.outcome = "NO"
      · rw [hty] at htn; exact absurd htn (by decide)
      · rcases n with _ | b0
        · rw [scanTrades_cons, if_pos hty, if_neg htn]
          simp only
          rw [ih (some t.price) none (Or.inr rfl)]
          simp [hasYes_cons, hasNo_cons, hty, htn]
        · rw [scanTrades_cons, if_pos hty, if_neg htn]
          simp only [hasYes_cons, hasNo_cons, hty, htn]
          simp
      · rcases y with _ | a0
        · rw [scanTrades_cons, if_neg hty, if_pos htn]
          simp only
          rw [ih none (some t.price) (Or.inl rfl)]
          simp [hasYes_cons, hasNo_cons, hty, htn]
        · rw [scanTrades_cons, if_neg hty, if_pos htn]
          simp only [hasYes_cons, hasNo_cons, hty, htn]
          simp
      · rcases y with _ | a0 <;> rcases n with _ | b0
        · rw [scanTrades_cons, if_neg hty, if_neg htn]
          simp only
          rw [ih none none (Or.inl rfl)]
          simp [hasYes_cons, hasNo_cons, hty, htn]
        · rw [scanTrades_cons, if_neg hty, if_neg htn]
          simp only
          rw [ih none (some b0) (Or.inl rfl)]
          simp [hasYes_cons, hasNo_cons, hty, htn]
        · rw [scanTrades_cons, if_neg hty, if_neg htn]
          simp only
          rw [ih (some a0) none (Or.inr rfl)]
          simp [hasYes_cons, hasNo_cons, hty, htn]
        · rcases h with h | h <;> simp at h

theorem scanTrades_eq_some (l : List TradeRec) :
    ∀ y n : Option ℚ, (y = none ∨ n = none) → ∀ a b : ℚ,
      scanTrades l y n = some (a, b) →
      ∃ k, 0 < k ∧ k ≤ l.length ∧ (l.take k).foldl updYes y = some a ∧
        (l.take k).foldl updNo n = some b ∧
        ∀ j, j < k → ((l.take j).foldl updYes y = none ∨ (l.take j).foldl updNo n = none) := by
  induction l with
  | nil =>
      intro y n h a b hscan
      exact absurd hscan (by simp [scanTrades])
  | cons t ts ih =>
      intro y n h a b hscan
      by_cases hty : t.outcome = "YES" <;> by_cases htn : t.outcome = "NO"
      · rw [hty] at htn; exact absurd htn (by decide)
      · -- the head record is a YES record
        rcases n with _ | b0
        · rw [scanTrades_cons, if_pos hty, if_neg htn] at hscan
          simp only at hscan
          obtain ⟨k, hk0, hklen, hya, hnb, hmin⟩ := ih (some t.price) none (Or.inr rfl) a b hscan
          refine ⟨k + 1, Nat.succ_pos k, by simp [List.length_cons]; omega, ?_, ?_, ?_⟩
          · simpa [List.take_succ_cons, List.foldl_cons, updYes, hty] using hya
          · simpa [List.take_succ_cons, List.foldl_cons, updNo, htn] using hnb
          · intro j hj
            cases j with
            | zero => exact Or.inr rfl
            | succ j =>
                have hj' : j < k := by omega
                rcases hmin j hj' with h0 | h0
                · exact Or.inl (by simpa [List.take_succ_cons, List.foldl_cons, updYes, hty] using h0)
                · exact Or.inr (by simpa [List.take_succ_cons, List.foldl_cons, updNo, htn] using h0)
        · rw [scanTrades_cons, if_pos hty, if_neg htn] at hscan
          simp only [Option.some.injEq, Prod.mk.injEq] at hscan
          obtain ⟨rfl, rfl⟩ := hscan
          have hynone : y = none := by
            rcases h with rfl | h
            · rfl
            · exact absurd h (by simp)
          subst hynone
          refine ⟨1, one_pos, by simp [List.length_cons], ?_, ?_, ?_⟩
          · simp [List.take_succ_cons, List.foldl_cons, updYes, hty]
          · simp [List.take_succ_cons, List.foldl_cons, updNo, htn]
          · intro j hj
            have hj0 : j = 0 := by omega
            subst hj0
            exact Or.inl (by simp)
      · -- the head record is a NO record
        rcases y with _ | a0
        · rw [scanTrades_cons, if_neg hty, if_pos htn] at hscan
          simp only at hscan
          obtain ⟨k, hk0, hklen, hya, hnb, hmin⟩ := ih none (some t.price) (Or.inl rfl) a b hscan
          refine ⟨k + 1, Nat.succ_pos k, by simp [List.length_cons]; omega, ?_, ?_, ?_⟩
          · simpa [List.take_succ_cons, List.foldl_cons, updYes, hty] using hya
          · simpa [List.take_succ_cons, List.foldl_cons, updNo, htn] using hnb
          · intro j hj
            cases j with
            | zero => exact Or.inl rfl
            | succ j =>
                have hj' : j < k := by omega
                rcases hmin j hj' with h0 | h0
                · exact Or.inl (by simpa [List.take_succ_cons, List.foldl_cons, updYes, hty] using h0)
                · exact Or.inr (by simpa [List.take_succ_cons, List.foldl_cons, updNo, htn] using h0)
        · rw [scanTrades_cons, if_neg hty, if_pos htn] at hscan
          simp only [Option.some.injEq, Prod.mk.injEq] at hscan
          obtain ⟨rfl, rfl⟩ := hscan
          have hnnone : n = none := by
            rcases h with h | rfl
            · exact absurd h (by simp)
            · rfl
          subst hnnone
          refine ⟨1, one_pos, by simp [List.length_cons], ?_, ?_, ?_⟩
          · simp [List.take_succ_cons, List.foldl_cons, updYes, hty]
          · simp [List.take_succ_cons, List.foldl_cons, updNo, htn]
          · intro j hj
            have hj0 : j = 0 := by omega
            subst hj0
            exact Or.inr (by simp)
      · -- the head record is neither side
        rcases y with _ | a0 <;> rcases n with _ | b0
        · rw [scanTrades_cons, if_neg hty, if_neg htn] at hscan
          simp only at hscan
          obtain ⟨k, hk0, hklen, hya, hnb, hmin⟩ := ih none none (Or.inl rfl) a b hscan
          refine ⟨k + 1, Nat.succ_pos k, by simp [List.length_cons]; omega, ?_, ?_, ?_⟩
          · simpa [List.take_succ_cons, List.foldl_cons, updYes, hty] using hya
          · simpa [List.take_succ_cons, List.foldl_cons, updNo, htn] using hnb
          · intro j hj
            cases j with
            | zero => exact Or.inl rfl
            | succ j =>
                have hj' : j < k := by omega
                rcases hmin j hj' with h0 | h0
                · exact Or.inl (by simpa [List.take_succ_cons, List.foldl_cons, updYes, hty] using h0)
                · exact Or.inr (by simpa [List.take_succ_cons, List.foldl_cons, updNo, htn] using h0)
        · rw [scanTrades_cons, if_neg hty, if_neg htn] at hscan
          simp only at hscan
          obtain ⟨k, hk0, hklen, hya, hnb, hmin⟩ := ih none (some b0) (Or.inl rfl) a b hscan
          refine ⟨k + 1, Nat.succ_pos k, by simp [List.length_cons]; omega, ?_, ?_, ?_⟩
          · simpa [List.take_succ_cons, List.foldl_cons, updYes, hty] using hya
          · simpa [List.take_succ_cons, List.foldl_cons, updNo, htn] using hnb
          · intro j hj
            cases j with
            | zero => exact Or.inl rfl
            | succ j =>
                have hj' : j < k := by omega
                rcases hmin j hj' with h0 | h0
                · exact Or.inl (by simpa [List.take_succ_cons, List.foldl_cons, updYes, hty] using h0)
                · exact Or.inr (by simpa [List.take_succ_cons, List.foldl_cons, updNo, htn] using h0)
        · rw [scanTrades_cons, if_neg hty, if_neg htn] at hscan
          simp only at hscan
          obtain ⟨k, hk0, hklen, hya, hnb, hmin⟩ := ih (some a0) none (Or.inr rfl) a b hscan
          refine ⟨k + 1, Nat.succ_pos k, by simp [List.length_cons]; omega, ?_, ?_, ?_⟩
          · simpa [List.take_succ_cons, List.foldl_cons, updYes, hty] using hya
          · simpa [List.take_succ_cons, List.foldl_cons, updNo, htn] using hnb
          · intro j hj
            cases j with
            | zero => exact Or.inr rfl
            | succ j =>
                have hj' : j < k := by omega
                rcases hmin j hj' with h0 | h0
                · exact Or.inl (by simpa [List.take_succ_cons, List.foldl_cons, updYes, hty] using h0)
                · exact Or.inr (by simpa [List.take_succ_cons, List.foldl_cons, updNo, htn] using h0)
        · rcases h with h | h <;> simp at h

/-- C8 counterexample: the claim says the first occurrence of a side in the
scan determines that side's returned price.  On the window YES at 1/2, YES
at 3/5, NO at 2/5 the code returns 3/5 for YES (the assignment is overwritten
before the NO side completes the pair), while the first YES occurrence is at
price 1/2. -/
theorem c8_counterexample :
    get_latest_prices exFeed = some (3/5, 2/5) ∧
    firstSidePrice "YES" exFeed = some (1/2) ∧ ((3/5 : ℚ)) ≠ (1/2 : ℚ) := by
  refine ⟨?_, ?_, by norm_num⟩
  · simp [get_latest_prices, scanTrades, exFeed]
  · simp [firstSidePrice, exFeed, List.find?]

/-- C8 amended: get_latest_prices scans the feed in its natural order and
returns none exactly when one side never occurs in the window; when it
returns a pair there is a shortest prefix of the window containing both
sides, and each side's returned price is the price of the most recent
occurrence of that side within that prefix (so the side completing the pair
gets its first occurrence, while the other side gets its latest observation
before completion, not its first). -/
theorem c8_latest_before_completion (l : List TradeRec) :
    (get_latest_prices l = none ↔ ¬(hasYes l ∧ hasNo l)) ∧
    ∀ a b : ℚ, get_latest_prices l = some (a, b) →
      ∃ k, 0 < k ∧ k ≤ l.length ∧
        lastYes (l.take k) = some a ∧ lastNo (l.take k) = some b ∧
        hasYes (l.take k) ∧ hasNo (l.take k) ∧
        ∀ j, j < k → ¬(hasYes (l.take j) ∧ hasNo (l.take j)) := by
  constructor
  · have h := scanTrades_eq_none l none none (Or.inl rfl)
    simpa [get_latest_prices] using h
  · intro a b hab
    obtain ⟨k, hk0, hklen, hya, hnb, hmin⟩ :=
      scanTrades_eq_some l none none (Or.inl rfl) a b hab
    have hY : hasYes (l.take k) := by
      have hne : (l.take k).foldl updYes none ≠ none := by rw [hya]; simp
      rcases (foldl_updYes_ne_none (l.take k) none).mp hne with h | h
      · exact absurd rfl h
      · exact h
    have hN : hasNo (l.take k) := by
      have hne : (l.take k).foldl updNo none ≠ none := by rw [hnb]; simp
      rcases (foldl_updNo_ne_none (l.take k) none).mp hne with h | h
      · exact absurd rfl h
      · exact h
    refine ⟨k, hk0, hklen, hya, hnb, hY, hN, ?_⟩
    rintro j hj ⟨hjY, hjN⟩
    rcases hmin j hj with h0 | h0
    · exact ((foldl_updYes_ne_none (l.take j) none).mpr (Or.inr hjY)) h0
    · exact ((foldl_updNo_ne_none (l.take j) none).mpr (Or.inr hjN)) h0

/-- C8 witness: the amended characterisation instantiated on the concrete
window of the counterexample. -/
theorem c8_latest_before_completion_witness :
    ∃ k, 0 < k ∧ k ≤ exFeed.length ∧
      lastYes (exFeed.take k) = some (3/5) ∧ lastNo (exFeed.take k) = some (2/5) ∧
      hasYes (exFeed.take k) ∧ hasNo (exFeed.take k) ∧
      ∀ j, j < k → ¬(hasYes (exFeed.take j) ∧ hasNo (exFeed.take j)) :=
  (c8_latest_before_completion exFeed).2 (3/5) (2/5)
    (by simp [get_latest_prices, scanTrades, exFeed])

/-- C2: on a poll with an observed price pair, for each side independently a
Fill is appended exactly when that side's price is at most the ceiling and
its counter is strictly below the target; the appended Fill carries the full
remaining quantity target minus filled at the observed price, the counter is
incremented by the same quantity, and a side already at its target produces
no further Fill. -/
theorem c2_entry_rule (mp : ℚ) (sh : ℤ) (now : ℕ) (y n : ℚ) (row : Session) :
    (yesFills (entryRule mp sh now y n row).trades =
        yesFills row.trades ++
          (if y ≤ mp ∧ row.shares_yes < sh then [⟨now, Side.yes, y, sh - row.shares_yes⟩] else [])) ∧
    (noFills (entryRule mp sh now y n row).trades =
        noFills row.trades ++
          (if n ≤ mp ∧ row.shares_no < sh then [⟨now, Side.no, n, sh - row.shares_no⟩] else [])) ∧
    ((entryRule mp sh now y n row).shares_yes =
        if y ≤ mp ∧ row.shares_yes < sh then row.shares_yes + (sh - row.shares_yes)
        else row.shares_yes) ∧
    ((entryRule mp sh now y n row).shares_no =
        if n ≤ mp ∧ row.shares_no < sh then row.shares_no + (sh - row.shares_no)
        else row.shares_no) ∧
    (row.shares_yes = sh →
        (entryRule mp sh now y n row).shares_yes = row.shares_yes ∧
        yesFills (entryRule mp sh now y n row).trades = yesFills row.trades) ∧
    (row.shares_no = sh →
        (entryRule mp sh now y n row).shares_no = row.shares_no ∧
        noFills (entryRule mp sh now y n row).trades = noFills row.trades) := by
  have hyf : yesFills (entryRule mp sh now y n row).trades =
      yesFills row.trades ++
        (if y ≤ mp ∧ row.shares_yes < sh then [⟨now, Side.yes, y, sh - row.shares_yes⟩] else []) := by
    by_cases h1 : y ≤ mp ∧ row.shares_yes < sh <;> by_cases h2 : n ≤ mp ∧ row.shares_no < sh <;>
      simp [entryRule, yesFills, h1, h2, List.filter_append]
  have hnf : noFills (entryRule mp sh now y n row).trades =
      noFills row.trades ++
        (if n ≤ mp ∧ row.shares_no < sh then [⟨now, Side.no, n, sh - row.shares_no⟩] else []) := by
    by_cases h1 : y ≤ mp ∧ row.shares_yes < sh <;> by_cases h2 : n ≤ mp ∧ row.shares_no < sh <;>
      simp [entryRule, noFills, h1, h2, List.filter_append]
  have hy : (entryRule mp sh now y n row).shares_yes =
      (if y ≤ mp ∧ row.shares_yes < sh then row.shares_yes + (sh - row.shares_yes)
       else row.shares_yes) := by
    by_cases h1 : y ≤ mp ∧ row.shares_yes < sh <;> by_cases h2 : n ≤ mp ∧ row.shares_no < sh <;>
      simp [entryRule, h1, h2]
  have hn : (entryRule mp sh now y n row).shares_no =
      (if n ≤ mp ∧ row.shares_no < sh then row.shares_no + (sh - row.shares_no)
       else row.shares_no) := by
    by_cases h1 : y ≤ mp ∧ row.shares_yes < sh <;> by_cases h2 : n ≤ mp ∧ row.shares_no < sh <;>
      simp [entryRule, h1, h2]
  refine ⟨hyf, hnf, hy, hn, ?_, ?_⟩
  · intro he
    have h1 : ¬(y ≤ mp ∧ row.shares_yes < sh) := by rintro ⟨-, hlt⟩; omega
    rw [hy, if_neg h1, hyf, if_neg h1, List.append_nil]
    exact ⟨rfl, rfl⟩
  · intro he
    have h2 : ¬(n ≤ mp ∧ row.shares_no < sh) := by rintro ⟨-, hlt⟩; omega
    rw [hn, if_neg h2, hnf, if_neg h2, List.append_nil]
    exact ⟨rfl, rfl⟩

/-- C2 witness: a row whose YES counter already equals its target of 5 gets
no further YES fill and keeps its counter. -/
theorem c2_entry_rule_witness :
    (entryRule 1 5 0 (1/2) (1/2) targetRow).shares_yes = targetRow.shares_yes ∧
    yesFills (entryRule 1 5 0 (1/2) (1/2) targetRow).trades = yesFills targetRow.trades :=
  (c2_entry_rule 1 5 0 (1/2) (1/2) targetRow).2.2.2.2.1 (by decide)

/-- C9 counterexample: the claim says a configure request with a negative
share target is rejected and leaves the stored target unchanged.  The
controls handler stores -5 over the default 20 without any validation. -/
theorem c9_counterexample :
    (controls ⟨some (-5), none, none, none⟩ initialState).shares = -5 ∧
    initialState.shares = 20 ∧ (-5 : ℤ) < 0 := by
  decide

/-- C9 amended: the controls handler performs no validation of the share
target: any present shares value, negative included, overwrites the stored
one; present max_price and mode overwrite likewise, absent fields are left
unchanged, and only max_sessions is normalised (non-positive stored as None,
meaning unbounded). -/
theorem c9_controls_no_validation (req : ControlReq) (st : ControlState) :
    (controls req st).shares = req.shares.getD st.shares ∧
    (controls req st).max_price = req.max_price.getD st.max_price ∧
    (controls req st).mode = req.mode.getD st.mode ∧
    (controls req st).max_sessions =
      (match req.max_sessions with
       | some v => if 0 < v then some v else none
       | none => st.max_sessions) ∧
    (controls req st).running = st.running := by
  rcases req with ⟨s, p, mo, ms⟩
  cases s <;> cases p <;> cases mo <;> cases ms <;> simp [controls, Option.getD]

theorem foldl_pickEarlier (rest : List MarketInfo) :
    ∀ b : MarketInfo,
      (rest.foldl pickEarlier b = b ∨ rest.foldl pickEarlier b ∈ rest) ∧
      end_ts_key (rest.foldl pickEarlier b) ≤ end_ts_key b ∧
      ∀ x ∈ rest, end_ts_key (rest.foldl pickEarlier b) ≤ end_ts_key x := by
  induction rest with
  | nil => intro b; simp
  | cons x rest ih =>
      intro b
      simp only [List.foldl_cons]
      obtain ⟨hmem, hle, hall⟩ := ih (pickEarlier b x)
      have hpb : end_ts_key (pickEarlier b x) ≤ end_ts_key b := by
        unfold pickEarlier
        by_cases hx : end_ts_key x < end_ts_key b
        · rw [if_pos hx]; exact le_of_lt hx
        · rw [if_neg hx]
      have hpx : end_ts_key (pickEarlier b x) ≤ end_ts_key x := by
        unfold pickEarlier
        by_cases hx : end_ts_key x < end_ts_key b
        · rw [if_pos hx]
        · rw [if_neg hx]; exact not_lt.mp hx
      refine ⟨?_, le_trans hle hpb, ?_⟩
      · rcases hmem with h | h
        · rw [h]
          unfold pickEarlier
          by_cases hx : end_ts_key x < end_ts_key b
          · rw [if_pos hx]; exact Or.inr (List.mem_cons_self x rest)
          · rw [if_neg hx]; exact Or.inl rfl
        · exact Or.inr (List.mem_cons_of_mem x h)
      · intro z hz
        rcases List.mem_cons.mp hz with rfl | hz
        · exact le_trans hle hpx
        · exact hall z hz

/-- C10: select_active_market returns none exactly on an empty candidate
list; otherwise the selected market is a candidate whose endDate sort key is
minimal (a failed endDate parse is keyed as datetime.max, after every
parseable expiry), and an unparseable-expiry candidate is selected only when
no candidate at all has a parseable expiry. -/
theorem c10_earliest_expiry (l : List MarketInfo) :
    (select_active_market l = none ↔ l = []) ∧
    ∀ m, select_active_market l = some m →
      m ∈ l ∧ (∀ x ∈ l, end_ts_key m ≤ end_ts_key x) ∧
      (m.endDate = none → ∀ x ∈ l, x.endDate = none) := by
  cases l with
  | nil => simp [select_active_market]
  | cons a rest =>
      constructor
      · simp [select_active_market]
      · intro m hm
        simp only [select_active_market, Option.some.injEq] at hm
        subst hm
        obtain ⟨hmem, hle, hall⟩ := foldl_pickEarlier rest a
        have hmem2 : rest.foldl pickEarlier a ∈ a :: rest := by
          rcases hmem with h | h
          · rw [h]; exact List.mem_cons_self a rest
          · exact List.mem_cons_of_mem a h
        have hmin : ∀ x ∈ a :: rest, end_ts_key (rest.foldl pickEarlier a) ≤ end_ts_key x := by
          intro x hx
          rcases List.mem_cons.mp hx with rfl | hx
          · exact hle
          · exact hall x hx
        refine ⟨hmem2, hmin, ?_⟩
        intro hnone x hx
        have htop : end_ts_key (rest.foldl pickEarlier a) = ⊤ := by
          simp [end_ts_key, hnone]
        have hxtop : end_ts_key x = ⊤ := top_le_iff.mp (htop ▸ hmin x hx)
        cases he : x.endDate with
        | none => rfl
        | some e =>
            exfalso
            rw [end_ts_key, he] at hxtop
            exact WithTop.coe_ne_top hxtop

/-- C10 witness: of two candidates expiring at 100 and 200 the one expiring
at 100 is selected and its key is minimal. -/
theorem c10_earliest_expiry_witness :
    mkA ∈ [mkB, mkA] ∧ end_ts_key mkA ≤ end_ts_key mkB :=
  ⟨((c10_earliest_expiry [mkB, mkA]).2 mkA (by decide)).1,
   ((c10_earliest_expiry [mkB, mkA]).2 mkA (by decide)).2.1 mkB (by decide)⟩

theorem entryRule_fixed (mp : ℚ) (sh : ℤ) (now : ℕ) (y n : ℚ) (row : Session) :
    (entryRule mp sh now y n row).end_ts = row.end_ts ∧
    (entryRule mp sh now y n row).profit = row.profit ∧
    (entryRule mp sh now y n row).condition_id = row.condition_id ∧
    (entryRule mp sh now y n row).shares_target = row.shares_target := by
  by_cases h1 : y ≤ mp ∧ row.shares_yes < sh <;> by_cases h2 : n ≤ mp ∧ row.shares_no < sh <;>
    simp [entryRule, h1, h2]

theorem rowOk_newSession (inp : Input) : rowOk (newSession inp) := by
  refine ⟨?_, ?_, ?_⟩
  · simp [newSession, sumYesShares]
  · simp [newSession, sumNoShares]
  · intro h
    exact absurd rfl h

theorem rowOk_entryRule (mp : ℚ) (sh : ℤ) (now : ℕ) (y n : ℚ) (row : Session)
    (h : rowOk row) (ho : row.end_ts = none) : rowOk (entryRule mp sh now y n row) := by
  obtain ⟨hy, hn, -⟩ := h
  refine ⟨?_, ?_, ?_⟩
  · by_cases h1 : y ≤ mp ∧ row.shares_yes < sh <;> by_cases h2 : n ≤ mp ∧ row.shares_no < sh <;>
      simp [entryRule, h1, h2, sumYesShares_append, sumYesShares_cons, sumYesShares_nil] <;>
      omega
  · by_cases h1 : y ≤ mp ∧ row.shares_yes < sh <;> by_cases h2 : n ≤ mp ∧ row.shares_no < sh <;>
      simp [entryRule, h1, h2, sumNoShares_append, sumNoShares_cons, sumNoShares_nil] <;>
      omega
  · rw [(entryRule_fixed mp sh now y n row).1, ho]
    intro hc
    exact absurd rfl hc

theorem rowOk_settle (now : ℕ) (row : Session) (h : rowOk row) :
    rowOk { row with end_ts := some now, profit := some (settleProfit row.trades) } :=
  ⟨h.1, h.2.1, fun _ => rfl⟩

theorem inv_tail (inp : Input) (front : List Session) (lastRow : Session) (st : LoopState)
    (hsess : st.sessions = front ++ [lastRow])
    (hid : st.session_id = some front.length)
    (hopen : lastRow.end_ts = none)
    (hfront : ∀ s ∈ front, s.end_ts ≠ none)
    (hrows : ∀ s ∈ st.sessions, rowOk s) :
    LoopInv (match st.session_end with
      | none => { st with crashed := true }
      | some e => if e ≤ inp.now then settleStep inp front.length st
                  else tradeStep inp front.length st) := by
  have hlastOk : rowOk lastRow := by
    refine hrows lastRow ?_
    rw [hsess]
    exact List.mem_append_right _ (List.mem_singleton_self _)
  cases hend : st.session_end with
  | none =>
      refine ⟨?_, hrows⟩
      simp only [shapeOk, hid]
      exact ⟨front, lastRow, hsess, rfl, hopen, hfront⟩
  | some e =>
      show LoopInv (if e ≤ inp.now then settleStep inp front.length st
        else tradeStep inp front.length st)
      by_cases hnow : e ≤ inp.now
      · rw [if_pos hnow]
        constructor
        · simp only [shapeOk, settleStep]
          intro s hs
          rw [hsess, modifyAt_append_eq] at hs
          rcases List.mem_append.mp hs with hs | hs
          · exact hfront s hs
          · rw [List.mem_singleton] at hs
            subst hs
            simp
        · intro s hs
          simp only [settleStep] at hs
          rw [hsess, modifyAt_append_eq] at hs
          rcases List.mem_append.mp hs with hs | hs
          · exact hrows s (by rw [hsess]; exact List.mem_append_left _ hs)
          · rw [List.mem_singleton] at hs
            subst hs
            exact rowOk_settle inp.now lastRow hlastOk
      · rw [if_neg hnow]
        cases hfeed : inp.feed with
        | error u =>
            refine ⟨?_, ?_⟩
            · simp only [shapeOk, tradeStep, hfeed, hid]
              exact ⟨front, lastRow, hsess, rfl, hopen, hfront⟩
            · simp only [tradeStep, hfeed]
              exact hrows
        | ok recs =>
            cases hp : get_latest_prices recs with
            | none =>
                refine ⟨?_, ?_⟩
                · simp only [shapeOk, tradeStep, hfeed, hp, hid]
                  exact ⟨front, lastRow, hsess, rfl, hopen, hfront⟩
                · simp only [tradeStep, hfeed, hp]
                  exact hrows
            | some pq =>
                obtain ⟨y0, n0⟩ := pq
                refine ⟨?_, ?_⟩
                · simp only [shapeOk, tradeStep, hfeed, hp, hid]
                  refine ⟨front, entryRule inp.max_price inp.shares inp.now y0 n0 lastRow,
                    ?_, rfl, ?_, hfront⟩
                  · rw [hsess, modifyAt_append_eq]
                  · rw [(entryRule_fixed _ _ _ _ _ _).1, hopen]
                · intro s hs
                  simp only [tradeStep, hfeed, hp] at hs
                  rw [hsess, modifyAt_append_eq] at hs
                  rcases List.mem_append.mp hs with hs | hs
                  · exact hrows s (by rw [hsess]; exact List.mem_append_left _ hs)
                  · rw [List.mem_singleton] at hs
                    subst hs
                    exact rowOk_entryRule _ _ _ _ _ lastRow hlastOk hopen

theorem associateStep_fields (m : MarketInfo) (e : ℕ) (i : ℕ) (st : LoopState)
    (hme : m.endDate = some e) :
    (associateStep m i st).crashed = st.crashed ∧
    (associateStep m i st).session_id = st.session_id ∧
    (associateStep m i st).session_end = some e ∧
    (associateStep m i st).sessions = modifyAt
      (fun s => { s with condition_id := some m.conditionId,
                         market_question := m.question }) i st.sessions := by
  simp [associateStep, hme]

theorem inv_afterCreate (inp : Input) (front : List Session) (lastRow : Session) (st : LoopState)
    (hsess : st.sessions = front ++ [lastRow])
    (hid : st.session_id = some front.length)
    (hcr : st.crashed = false)
    (hopen : lastRow.end_ts = none)
    (hfront : ∀ s ∈ front, s.end_ts ≠ none)
    (hrows : ∀ s ∈ st.sessions, rowOk s) :
    LoopInv (afterCreate inp front.length st) := by
  cases hm : inp.market with
  | none =>
      simp only [afterCreate, hm]
      refine ⟨?_, hrows⟩
      simp only [shapeOk, hid]
      exact ⟨front, lastRow, hsess, rfl, hopen, hfront⟩
  | some m =>
      simp only [afterCreate, hm]
      by_cases hc : st.session_condition = some m.conditionId
      · rw [if_pos hc, if_neg (by rw [hcr]; simp)]
        exact inv_tail inp front lastRow st hsess hid hopen hfront hrows
      · rw [if_neg hc]
        cases hme : m.endDate with
        | none =>
            simp only [associateStep, hme]
            simp only [if_true]
            refine ⟨?_, hrows⟩
            simp only [shapeOk, hid]
            exact ⟨front, lastRow, hsess, rfl, hopen, hfront⟩
        | some e =>
            have hf := associateStep_fields m e front.length st hme
            rw [if_neg (show ¬((associateStep m front.length st).crashed = true) by
              rw [hf.1, hcr]; simp)]
            have hsess2 : (associateStep m front.length st).sessions
                = front ++ [{ lastRow with condition_id := some m.conditionId,
                                           market_question := m.question }] := by
              rw [hf.2.2.2, hsess, modifyAt_append_eq]
            have hid2 : (associateStep m front.length st).session_id = some front.length := by
              rw [hf.2.1, hid]
            have hrows2 : ∀ s ∈ (associateStep m front.length st).sessions, rowOk s := by
              rw [hf.2.2.2]
              intro s hs
              rcases mem_modifyAt _ _ _ _ hs with hs | ⟨t, ht, rfl⟩
              · exact hrows s hs
              · exact hrows t ht
            exact inv_tail inp front
              { lastRow with condition_id := some m.conditionId, market_question := m.question }
              (associateStep m front.length st) hsess2 hid2 hopen hfront hrows2

theorem loopInv_iter (inp : Input) (st : LoopState) (h : LoopInv st) :
    LoopInv (loopIter inp st) := by
  obtain ⟨hshape, hrows⟩ := h
  cases hcr : st.crashed with
  | true =>
      simp only [loopIter, hcr]
      simp only [if_true]
      exact ⟨hshape, hrows⟩
  | false =>
      cases hrun : inp.running with
      | false =>
          simp only [loopIter, hcr, hrun]
          simp
          exact ⟨hshape, hrows⟩
      | true =>
          simp only [loopIter, hcr, hrun]
          simp only [Bool.false_eq_true, if_false]
          cases hsid : st.session_id with
          | none =>
              have hall : ∀ s ∈ st.sessions, s.end_ts ≠ none := by
                have h2 := hshape
                simp only [shapeOk, hsid] at h2
                exact h2
              simp only
              refine inv_afterCreate inp st.sessions (newSession inp) _ rfl rfl rfl rfl hall ?_
              intro s hs
              rcases List.mem_append.mp hs with hs | hs
              · exact hrows s hs
              · rw [List.mem_singleton] at hs
                subst hs
                exact rowOk_newSession inp
          | some i =>
              have h2 := hshape
              simp only [shapeOk, hsid] at h2
              obtain ⟨front, lastRow, hsess, hi, hopen, hfront⟩ := h2
              subst hi
              simp only
              exact inv_afterCreate inp front lastRow st hsess hsid hcr hopen hfront hrows

theorem loopInv_init : LoopInv loopInit := by
  constructor
  · simp only [shapeOk, loopInit]
    intro s hs
    simp at hs
  · intro s hs
    simp [loopInit] at hs

theorem loopInv_run (inputs : List Input) (st : LoopState) (h : LoopInv st) :
    LoopInv (runLoop inputs st) := by
  induction inputs generalizing st with
  | nil => exact h
  | cons inp rest ih => exact ih (loopIter inp st) (loopInv_iter inp st h)

/-- C1: settlement is computed from the session's list of fills alone: the
per-side CASE sums of the settlement query give exactly
min(filled_yes, filled_no) times 1 minus the sum of price times quantity over
all of the session's fills on both sides (also on the empty list), and every
session row the loop has closed carries exactly that value of its own trades
list as its recorded profit. -/
theorem c1_settlement_pnl :
    (∀ ts : List Fill, settleProfit ts =
        ((min (sumYesShares ts) (sumNoShares ts) : ℤ) : ℚ) -
          (ts.map (fun f => f.price * (f.shares : ℚ))).sum) ∧
    ∀ inputs : List Input, ∀ s ∈ (runLoop inputs loopInit).sessions,
      s.end_ts ≠ none → s.profit = some (settleProfit s.trades) := by
  constructor
  · intro ts
    rw [settleProfit, cost_split]
  · intro inputs s hs hclosed
    exact ((loopInv_run inputs loopInit loopInv_init).2 s hs).2.2 hclosed

/-- C1 witness: a concrete two-poll run in which the market expires on the
second poll; the closed row's profit is the settled value of its own fills. -/
theorem c1_settlement_pnl_witness :
    ((runLoop [inpFill, inpSettle] loopInit).sessions.getD 0 emptySession).profit =
      some (settleProfit
        ((runLoop [inpFill, inpSettle] loopInit).sessions.getD 0 emptySession).trades) :=
  c1_settlement_pnl.2 [inpFill, inpSettle]
    ((runLoop [inpFill, inpSettle] loopInit).sessions.getD 0 emptySession)
    (by rw [runSettle_eval]; simp [List.getD])
    (by rw [runSettle_eval]; simp [List.getD])

/-- C3: after every committed poll iteration, every session row's shares_yes
and shares_no counters equal the sums of the quantities of that session's
YES and NO fills: the fill insert and the counter increment land in the same
transaction, so one is never observed without the other. -/
theorem c3_counters_match_fills (inputs : List Input) :
    ∀ s ∈ (runLoop inputs loopInit).sessions,
      s.shares_yes = sumYesShares s.trades ∧ s.shares_no = sumNoShares s.trades := by
  intro s hs
  have h := (loopInv_run inputs loopInit loopInv_init).2 s hs
  exact ⟨h.1, h.2.1⟩

/-- C3 witness: the counters of the concrete one-poll run equal the sums of
its recorded fills. -/
theorem c3_counters_match_fills_witness :
    ((runLoop [inpFill] loopInit).sessions.getD 0 emptySession).shares_yes =
      sumYesShares ((runLoop [inpFill] loopInit).sessions.getD 0 emptySession).trades ∧
    ((runLoop [inpFill] loopInit).sessions.getD 0 emptySession).shares_no =
      sumNoShares ((runLoop [inpFill] loopInit).sessions.getD 0 emptySession).trades :=
  c3_counters_match_fills [inpFill]
    ((runLoop [inpFill] loopInit).sessions.getD 0 emptySession)
    (by rw [runFill_eval]; simp [List.getD])

/-- C5: after any run of the loop, while a session is tracked (IN_SESSION)
exactly one sessions row has a NULL end_ts, it is the most recently created
row, and every earlier row is already closed (so a session is always closed
before its successor is created); with no tracked session every row is
closed. -/
theorem c5_exactly_one_open (inputs : List Input) :
    ((runLoop inputs loopInit).session_id = none → openCount (runLoop inputs loopInit) = 0) ∧
    ∀ i, (runLoop inputs loopInit).session_id = some i →
      openCount (runLoop inputs loopInit) = 1 ∧
      i + 1 = (runLoop inputs loopInit).sessions.length ∧
      ∀ j, j < i → ((runLoop inputs loopInit).sessions.getD j emptySession).end_ts ≠ none := by
  have hinv := loopInv_run inputs loopInit loopInv_init
  obtain ⟨hshape, -⟩ := hinv
  constructor
  · intro hnone
    simp only [shapeOk, hnone] at hshape
    rw [openCount, List.countP_eq_zero]
    intro s hs
    simp only [Option.isNone_iff_eq_none]
    simpa using hshape s hs
  · intro i hsome
    simp only [shapeOk, hsome] at hshape
    obtain ⟨front, lastRow, hsess, hi, hopen, hfront⟩ := hshape
    subst hi
    refine ⟨?_, ?_, ?_⟩
    · rw [openCount, hsess, List.countP_append]
      have h0 : front.countP (fun s => s.end_ts.isNone) = 0 := by
        rw [List.countP_eq_zero]
        intro s hs
        simp only [Option.isNone_iff_eq_none]
        simpa using hfront s hs
      rw [h0]
      simp [List.countP_cons, hopen]
    · rw [hsess]
      simp
    · intro j hj
      rw [hsess, getD_append_left front [lastRow] emptySession j hj]
      exact hfront _ (getD_mem front emptySession j hj)

/-- C5 witness: after the concrete one-poll run a session is tracked and
exactly one row is open. -/
theorem c5_exactly_one_open_witness :
    openCount (runLoop [inpFill] loopInit) = 1 :=
  (((c5_exactly_one_open [inpFill]).2 0) (by rw [runFill_eval])).1

theorem targetOk_entryRule (T : ℤ) (mp : ℚ) (now : ℕ) (y n : ℚ) (row : Session)
    (h : targetOk T row) : targetOk T (entryRule mp T now y n row) := by
  obtain ⟨ht, hy, hn⟩ := h
  refine ⟨by rw [(entryRule_fixed mp T now y n row).2.2.2, ht], ?_, ?_⟩
  · by_cases h1 : y ≤ mp ∧ row.shares_yes < T <;> by_cases h2 : n ≤ mp ∧ row.shares_no < T <;>
      simp [entryRule, h1, h2] <;> omega
  · by_cases h1 : y ≤ mp ∧ row.shares_yes < T <;> by_cases h2 : n ≤ mp ∧ row.shares_no < T <;>
      simp [entryRule, h1, h2] <;> omega

theorem tail_preserves (P : Session → Prop) (inp : Input) (i : ℕ) (st : LoopState)
    (hsettle : ∀ s, P s → P { s with end_ts := some inp.now,
                                     profit := some (settleProfit s.trades) })
    (hentry : ∀ y n s, P s → P (entryRule inp.max_price inp.shares inp.now y n s))
    (h : ∀ s ∈ st.sessions, P s) :
    ∀ s ∈ (if st.crashed then st else match st.session_end with
      | none => { st with crashed := true }
      | some e => if e ≤ inp.now then settleStep inp i st
                  else tradeStep inp i st).sessions, P s := by
  by_cases hcr : st.crashed = true
  · rw [if_pos hcr]
    exact h
  · rw [if_neg hcr]
    cases hend : st.session_end with
    | none => exact h
    | some e =>
        show ∀ s ∈ (if e ≤ inp.now then settleStep inp i st
          else tradeStep inp i st).sessions, P s
        by_cases hnow : e ≤ inp.now
        · rw [if_pos hnow]
          intro s hs
          simp only [settleStep] at hs
          rcases mem_modifyAt _ _ _ _ hs with hs | ⟨t, ht, rfl⟩
          · exact h s hs
          · exact hsettle t (h t ht)
        · rw [if_neg hnow]
          cases hfeed : inp.feed with
          | error u =>
              simp only [tradeStep, hfeed]
              exact h
          | ok recs =>
              cases hp : get_latest_prices recs with
              | none =>
                  simp only [tradeStep, hfeed, hp]
                  exact h
              | some pq =>
                  obtain ⟨y0, n0⟩ := pq
                  intro s hs
                  simp only [tradeStep, hfeed, hp] at hs
                  rcases mem_modifyAt _ _ _ _ hs with hs | ⟨t, ht, rfl⟩
                  · exact h s hs
                  · exact hentry y0 n0 t (h t ht)

theorem loopIter_preserves (P : Session → Prop) (inp : Input) (st : LoopState)
    (hnew : P (newSession inp))
    (hassoc : ∀ cid q s, P s → P { s with condition_id := some cid, market_question := q })
    (hsettle : ∀ s, P s → P { s with end_ts := some inp.now,
                                     profit := some (settleProfit s.trades) })
    (hentry : ∀ y n s, P s → P (entryRule inp.max_price inp.shares inp.now y n s))
    (h : ∀ s ∈ st.sessions, P s) :
    ∀ s ∈ (loopIter inp st).sessions, P s := by
  have hAfter : ∀ (st2 : LoopState) (i : ℕ), (∀ s ∈ st2.sessions, P s) →
      ∀ s ∈ (afterCreate inp i st2).sessions, P s := by
    intro st2 i h2
    cases hm : inp.market with
    | none =>
        simp only [afterCreate, hm]
        exact h2
    | some m =>
        simp only [afterCreate, hm]
        by_cases hc : st2.session_condition = some m.conditionId
        · rw [if_pos hc]
          exact tail_preserves P inp i st2 hsettle hentry h2
        · rw [if_neg hc]
          have h3 : ∀ s ∈ (associateStep m i st2).sessions, P s := by
            cases hme : m.endDate with
            | none =>
                simp only [associateStep, hme]
                exact h2
            | some e =>
                simp only [associateStep, hme]
                intro s hs
                rcases mem_modifyAt _ _ _ _ hs with hs | ⟨t, ht, rfl⟩
                · exact h2 s hs
                · exact hassoc m.conditionId m.question t (h2 t ht)
          have h4 := tail_preserves P inp i (associateStep m i st2) hsettle hentry h3
          by_cases hcr2 : (associateStep m i st2).crashed = true
          · rw [if_pos hcr2]
            rw [if_pos hcr2] at h4
            exact h4
          · rw [if_neg hcr2]
            rw [if_neg hcr2] at h4
            exact h4
  by_cases hcr : st.crashed = true
  · simp only [loopIter, if_pos hcr]
    exact h
  · rw [loopIter, if_neg hcr]
    by_cases hrun : inp.running = false
    · rw [if_pos hrun]
      exact h
    · rw [if_neg hrun]
      cases hsid : st.session_id with
      | none =>
          simp only
          refine hAfter _ st.sessions.length ?_
          intro s hs
          rcases List.mem_append.mp hs with hs | hs
          · exact h s hs
          · rw [List.mem_singleton] at hs
            subst hs
            exact hnew
      | some i =>
          simp only
          exact hAfter st i h

theorem targetOk_run (T : ℤ) (h0 : 0 ≤ T) :
    ∀ (inputs : List Input) (st : LoopState), (∀ inp ∈ inputs, inp.shares = T) →
      (∀ s ∈ st.sessions, targetOk T s) →
      ∀ s ∈ (runLoop inputs st).sessions, targetOk T s := by
  intro inputs
  induction inputs with
  | nil =>
      intro st _ h
      exact h
  | cons inp rest ih =>
      intro st hT h
      have hinp : inp.shares = T := hT inp (List.mem_cons_self inp rest)
      refine ih (loopIter inp st) (fun i hi => hT i (List.mem_cons_of_mem inp hi)) ?_
      refine loopIter_preserves (targetOk T) inp st ?_ ?_ ?_ ?_ h
      · exact ⟨by simp [newSession, hinp], by simpa [newSession] using h0,
          by simpa [newSession] using h0⟩
      · intro cid q s hs
        exact hs
      · intro s hs
        exact hs
      · intro y n s hs
        rw [hinp]
        exact targetOk_entryRule T inp.max_price inp.now y n s hs

/-- C4 counterexample: the claim quantifies over poll sequences during which
the configuration may change.  With the share target configured as 1, a
first poll fills the session to its stored target shares_target = 1; the
target is then raised to 2 through the controls endpoint and the next poll
fills again, driving shares_yes to 2, strictly above the session's stored
shares_target of 1. -/
theorem c4_counterexample :
    ((runLoop [inpFill, inpRaise] loopInit).sessions.getD 0 emptySession).shares_yes = 2 ∧
    ((runLoop [inpFill, inpRaise] loopInit).sessions.getD 0 emptySession).shares_target = 1 ∧
    ¬(((runLoop [inpFill, inpRaise] loopInit).sessions.getD 0 emptySession).shares_yes ≤
        ((runLoop [inpFill, inpRaise] loopInit).sessions.getD 0 emptySession).shares_target) := by
  rw [runRaise_eval]
  norm_num [List.getD]

/-- C4 amended: over every poll sequence during which the configured share
target stays fixed at one non-negative value T, every session row keeps
shares_target = T and its filled-share counters never exceed T.  (When the
configuration is raised between polls the counters can exceed the stored
shares_target, as the counterexample shows: the entry rule compares against
the current configuration, not the row's stored target.) -/
theorem c4_target_bound (inputs : List Input) (T : ℤ) (h0 : 0 ≤ T)
    (hT : ∀ inp ∈ inputs, inp.shares = T) :
    ∀ s ∈ (runLoop inputs loopInit).sessions,
      s.shares_target = T ∧ s.shares_yes ≤ T ∧ s.shares_no ≤ T := by
  intro s hs
  refine targetOk_run T h0 inputs loopInit hT ?_ s hs
  intro s2 hs2
  simp [loopInit] at hs2

/-- C4 witness: under the fixed target 1 the concrete one-poll run keeps the
counter at most 1. -/
theorem c4_target_bound_witness :
    ((runLoop [inpFill] loopInit).sessions.getD 0 emptySession).shares_yes ≤ 1 :=
  (c4_target_bound [inpFill] 1 (by norm_num)
    (by intro i hi; rw [List.mem_singleton] at hi; subst hi; rfl)
    ((runLoop [inpFill] loopInit).sessions.getD 0 emptySession)
    (by rw [runFill_eval]; simp [List.getD])).2.1

/-- C6 counterexample: after the first poll the session's market identity is
A and a fill has been recorded against it; on the next poll the selected
market has switched to B before expiry and the loop rewrites the same
session row's condition_id to B, after the fill. -/
theorem c6_counterexample :
    ((runLoop [inpFill] loopInit).sessions.getD 0 emptySession).condition_id = some "A" ∧
    ((runLoop [inpFill] loopInit).sessions.getD 0 emptySession).trades ≠ [] ∧
    ((runLoop [inpFill, inpSwitch] loopInit).sessions.getD 0 emptySession).condition_id
      = some "B" ∧
    ((runLoop [inpFill, inpSwitch] loopInit).sessions.getD 0 emptySession).trades ≠ [] := by
  rw [runFill_eval, runSwitch_eval]
  simp [List.getD]

/-- C6 amended: a session's market identity is not frozen at the first price
observation: whenever the loop is running in a session and the selected
market's conditionId differs from the tracked one, the session row's
condition_id is rewritten to the newly selected market, regardless of any
fills already recorded against the row. -/
theorem c6_condition_reassigned (inp : Input) (st : LoopState) (i : ℕ) (m : MarketInfo) (e : ℕ)
    (hcr : st.crashed = false) (hrun : inp.running = true)
    (hsid : st.session_id = some i) (hm : inp.market = some m)
    (hme : m.endDate = some e) (hne : st.session_condition ≠ some m.conditionId)
    (hi : i < st.sessions.length) :
    ((loopIter inp st).sessions.getD i emptySession).condition_id = some m.conditionId := by
  rw [loopIter, if_neg (by rw [hcr]; simp), if_neg (by rw [hrun]; simp), hsid]
  simp only
  rw [afterCreate]
  simp only [hm]
  rw [if_neg hne]
  have hf := associateStep_fields m e i st hme
  rw [if_neg (show ¬((associateStep m i st).crashed = true) by rw [hf.1, hcr]; simp)]
  have hilen : i < (associateStep m i st).sessions.length := by
    rw [hf.2.2.2, length_modifyAt]
    exact hi
  have hbase : ((associateStep m i st).sessions.getD i emptySession).condition_id
      = some m.conditionId := by
    rw [hf.2.2.2, getD_modifyAt_self _ _ _ _ hi]
  cases hend : (associateStep m i st).session_end with
  | none =>
      simp only
      exact hbase
  | some e2 =>
      show ((if e2 ≤ inp.now then settleStep inp i (associateStep m i st)
        else tradeStep inp i (associateStep m i st)).sessions.getD i emptySession).condition_id
        = some m.conditionId
      by_cases hnow : e2 ≤ inp.now
      · rw [if_pos hnow]
        simp only [settleStep]
        rw [getD_modifyAt_self _ _ _ _ hilen]
        exact hbase
      · rw [if_neg hnow]
        cases hfeed : inp.feed with
        | error u =>
            simp only [tradeStep, hfeed]
            exact hbase
        | ok recs =>
            cases hp : get_latest_prices recs with
            | none =>
                simp only [tradeStep, hfeed, hp]
                exact hbase
            | some pq =>
                obtain ⟨y0, n0⟩ := pq
                simp only [tradeStep, hfeed, hp]
                rw [getD_modifyAt_self _ _ _ _ hilen]
                rw [(entryRule_fixed _ _ _ _ _ _).2.2.1]
                exact hbase

/-- C6 witness: the amended statement instantiated on the concrete trace of
the counterexample, where the reassigned row already holds a fill. -/
theorem c6_condition_reassigned_witness :
    ((loopIter inpSwitch (runLoop [inpFill] loopInit)).sessions.getD 0
      emptySession).condition_id = some "B" :=
  c6_condition_reassigned inpSwitch (runLoop [inpFill] loopInit) 0 mkB 200
    (by rw [runFill_eval]) rfl (by rw [runFill_eval]) rfl rfl
    (by rw [runFill_eval]; simp [mkB]) (by rw [runFill_eval]; simp)

/-- C7: get_latest_prices is called with no exception handler inside
bot_loop (unlike the market refresh, which swallows its errors), so a poll
whose price fetch raises kills the scheduler thread instead of merely
skipping the cycle.  On the concrete trace the failing cycle commits nothing
(the table is exactly as after the previous poll) but the loop is dead: a
further, well-formed poll no longer changes the state.  The claim's
non-termination half is therefore violated by the code at this input. -/
theorem c7_price_fetch_crash :
    (runLoop [inpFill, inpCrash] loopInit).crashed = true ∧
    (runLoop [inpFill, inpCrash] loopInit).sessions = (runLoop [inpFill] loopInit).sessions ∧
    runLoop [inpFill, inpCrash, inpFill] loopInit = runLoop [inpFill, inpCrash] loopInit := by
  refine ⟨?_, ?_, ?_⟩
  · rw [runCrash_eval]
  · rw [runCrash_eval, runFill_eval]
  · show loopIter inpFill (runLoop [inpFill, inpCrash] loopInit) =
      runLoop [inpFill, inpCrash] loopInit
    rw [runCrash_eval]
    simp [loopIter]

end Bumblebee
